import Mathlib

/-
  Verification development for the node-ssh session layer
  (src/index.ts / helpers.ts of the repository).

  The embedding models the stateful, promise-based TypeScript code as
  executable Lean functions:
  * remote SFTP primitives (stat / mkdir / fastPut) are scripted oracles:
    each call consumes the next response of an explicit response list,
    so "which requests were issued" is visible as script consumption;
  * the single-threaded JS event loop is modelled by a deterministic
    schedule: synchronous code runs to completion before any I/O
    completion callback, and completions are then delivered in issuance
    order (local completions before network completions);
  * machine-level details (byte buffers) are modelled as Lean Strings /
    Char lists.
-/

namespace NodeSSH

/-! ## JS error values and helpers.transformError -/

/-- A JavaScript `Error` as the library observes it: a `message` and an
optional `code` property. -/
structure JsErr where
  message : String
  code : Option String
deriving DecidableEq, Repr

/-- Position-wise matcher for the regexp `/Error: (E[\S]+): /` of
`helpers.ts` (`CODE_REGEXP`): at the current position the input must read
`"Error: "`, followed by a maximal non-whitespace run that starts with
`'E'`, has length at least 3, ends with `':'`, and is followed by a space;
the capture is the run without its final `':'`. -/
def matchCodeAt (cs : List Char) : Option String :=
  if "Error: ".data.isPrefixOf cs then
    let rest := cs.drop 7
    let run := rest.takeWhile (fun c => !c.isWhitespace)
    match run with
    | 'E' :: tail =>
      if tail.length ≥ 2 && (run.getLast? == some ':') && (rest.get? run.length == some ' ')
      then some (String.mk run.dropLast)
      else none
    | _ => none
  else none

/-- First match of `CODE_REGEXP` anywhere in the input, as `RegExp.exec`
finds it (leftmost position). -/
def findCode : List Char → Option String
  | [] => none
  | c :: rest =>
    match matchCodeAt (c :: rest) with
    | some code => some code
    | none => findCode rest

/-- `helpers.transformError`: run `CODE_REGEXP` over the string form of the
error (`"Error: " + message` for a plain `Error`) and, on a match, store the
captured token in the error's `code` property. -/
def transformError (e : JsErr) : JsErr :=
  match findCode ("Error: " ++ e.message).data with
  | some code => ⟨e.message, some code⟩
  | none => e

/-! ## Scripted SFTP remote and helpers.mkdirSftp -/

/-- Outcome of one `sftp.stat` call: the path is a directory, the path
exists but is not a directory, or `stat` threw (the `catch` in
`helpers.mkdirSftp` swallows the error and leaves `stats` undefined). -/
inductive StatResp
  | isDir
  | isFile
  | noStat
deriving DecidableEq, Repr

/-- Outcome of one `sftp.mkdir` / `sftp.fastPut` call. -/
inductive MkResp
  | ok
  | err (e : JsErr)
deriving DecidableEq, Repr

/-- Scripted remote: the successive answers the SFTP handle will give to
`stat` and to `mkdir` requests.  A theorem's script always contains enough
entries; on exhaustion the defaults (`noStat`, `ok`) apply. -/
structure Remote where
  stats : List StatResp
  mks : List MkResp
deriving DecidableEq, Repr

def popStat (r : Remote) : StatResp × Remote :=
  match r.stats with
  | [] => (StatResp.noStat, r)
  | s :: rest => (s, ⟨rest, r.mks⟩)

def popMk (r : Remote) : MkResp × Remote :=
  match r.mks with
  | [] => (MkResp.ok, r)
  | m :: rest => (m, ⟨r.stats, rest⟩)

/-- `helpers.mkdirSftp(path, sftp)`: stat the path; if it exists and is a
directory, succeed with no further request; if it exists and is not a
directory, throw the fixed not-a-directory error; otherwise issue one
`sftp.mkdir`, throwing `transformError(error)` on failure. -/
def mkdirSftp (r : Remote) : Except JsErr Unit × Remote :=
  let (st, r1) := popStat r
  match st with
  | StatResp.isDir => (Except.ok (), r1)
  | StatResp.isFile =>
    (Except.error ⟨"mkdir() failed, target already exists and is not a directory", none⟩, r1)
  | StatResp.noStat =>
    let (mk, r2) := popMk r1
    match mk with
    | MkResp.ok => (Except.ok (), r2)
    | MkResp.err e => (Except.error (transformError e), r2)

/-- The retry guard of `SSH.mkdir` (sftp mode):
`error.message === "No such file" || error.code === "ENOENT"`. -/
def isMissingAncestor (e : JsErr) : Bool :=
  e.message = "No such file" || e.code = some "ENOENT"

/-- `SSH.mkdir(path, "sftp", sftp)`.  Remote paths are segment lists;
`path.dirname` is `dropLast`.  `makeSftpDirectory(true)` attempts
`mkdirSftp`; on a missing-ancestor failure it recursively ensures the
parent and then runs `makeSftpDirectory(false)`, which attempts once more
and propagates any failure.  Any non-missing-ancestor failure propagates
unmodified.  At the filesystem root (`[]`) `path.dirname` is a fixpoint and
the source would re-issue the same call forever should the root itself
stat-fail as missing (impossible on a real filesystem); the model
propagates the error there instead, and no theorem depends on that
branch. -/
def mkdir (p : List String) (r : Remote) : Except JsErr Unit × Remote :=
  match mkdirSftp r with
  | (Except.ok _, r1) => (Except.ok (), r1)
  | (Except.error e, r1) =>
    if isMissingAncestor e then
      match p with
      | [] => (Except.error e, r1)
      | x :: xs =>
        match mkdir (x :: xs).dropLast r1 with
        | (Except.error e2, r2) => (Except.error e2, r2)
        | (Except.ok _, r2) =>
          match mkdirSftp r2 with
          | (Except.ok _, r3) => (Except.ok (), r3)
          | (Except.error e2, r3) => (Except.error e2, r3)
    else (Except.error e, r1)
termination_by p.length
decreasing_by simp [List.length_dropLast]

/-! ## SSH.putFile -/

/-- Scripted environment for one `putFile` call: the successive `fastPut`
outcomes, plus the remote script consumed by the recovery `mkdir` call. -/
structure PutEnv where
  fastPuts : List MkResp
  remote : Remote
deriving DecidableEq, Repr

def popFastPut (env : PutEnv) : MkResp × PutEnv :=
  match env.fastPuts with
  | [] => (MkResp.ok, env)
  | o :: rest => (o, ⟨rest, env.remote⟩)

/-- `SSH.putFile(local, remote, sftp, opts)`: attempt `fastPut`; if it
fails with an error whose message is exactly `"No such file"`, create the
remote parent directory via `mkdir` and retry `fastPut` once (a failure of
the retry, or of the `mkdir`, propagates); any other failure is rejected
unmodified.  Note the guard tests only `error.message`, not the error
code. -/
def putFile (remoteFile : List String) (env : PutEnv) : Except JsErr Unit × PutEnv :=
  let (o1, env1) := popFastPut env
  match o1 with
  | MkResp.ok => (Except.ok (), env1)
  | MkResp.err e =>
    if e.message = "No such file" then
      match mkdir remoteFile.dropLast env1.remote with
      | (Except.error em, r2) => (Except.error em, ⟨env1.fastPuts, r2⟩)
      | (Except.ok _, r2) =>
        let (o2, env3) := popFastPut ⟨env1.fastPuts, r2⟩
        match o2 with
        | MkResp.ok => (Except.ok (), env3)
        | MkResp.err e2 => (Except.error e2, env3)
    else (Except.error e, env1)

/-! ## SSH.putFiles cleanup guard -/

/-- The handle-release decision of `SSH.putFiles`.  The body binds
`const sftp = givenSftp || await this.requestSFTP()` (the acquired handle is
modelled as handle `0`) and its `finally` clause — which runs whether the
transfers succeeded or failed, hence the unused outcome argument — tests
`if (!sftp) { sftp.end(); }`.  The result reports whether `sftp.end()` was
invoked.  Contrast `putFile`/`getFile`/`putDirectory`, whose guards test
`!givenSftp`. -/
def putFilesCleanup (givenSftp : Option Nat) (_succeeded : Bool) : Bool :=
  let sftp : Option Nat :=
    match givenSftp with
    | some h => some h
    | none => some 0
  match sftp with
  | none => true
  | some _ => false

/-! ## SSH.putDirectory and SSH.putFiles: transfer scheduling traces

`putDirectory` builds one async task per enumerated file
(`files.map(async file => ...)`) and awaits them with `Promise.all`;
`putFiles` slices the file list into chunks of `maxAtOnce` and awaits each
chunk's `Promise.all` before starting the next.  We model the observable
schedule as an event trace.  Per file `i` the trace records the moment its
transfer is issued (`tStart i`), the moment it settles
(`tDone i err`, `err = none` on success) and — for `putDirectory` — the
`config.tick` callback; per remote parent directory the trace records the
`mkdir` request and completion.  The JS event loop fixes the schedule:
the synchronous `files.map` pass runs to completion before any completion
callback, so every file finding its parent already in `directoriesCreated`
issues its transfer before any `mkdir` completes; afterwards the serialized
directory queue runs, resuming each first-discoverer, and finally transfers
settle in issuance order. -/

inductive Ev
  | mkStart (d : String)
  | mkDone (d : String)
  | tStart (i : Nat)
  | tDone (i : Nat) (err : Option String)
  | tick (i : Nat) (err : Option String)
deriving DecidableEq, Repr

/-- The synchronous `files.map` pass of `putDirectory`.  `dirs` lists, in
file order, each file's remote parent directory; `i` is the index of the
first remaining file; `created` is the `directoriesCreated` set.  Returns
the serialized directory queue (directory, index of the file awaiting that
link), the indices whose transfers were issued synchronously (their parent
was already in the set), and the final set. -/
def syncPhase : List String → Nat → List String →
    List (String × Nat) × List Nat × List String
  | [], _, created => ([], [], created)
  | d :: rest, i, created =>
    if d ∈ created then
      let r := syncPhase rest (i + 1) created
      (r.1, i :: r.2.1, r.2.2)
    else
      let r := syncPhase rest (i + 1) (created ++ [d])
      ((d, i) :: r.1, r.2.1, r.2.2)

/-- The serialized `directoriesQueue` of `putDirectory`: each link issues
its `mkdir` only after the previous one completed, and its awaiting file
issues its transfer right after.  A failing `mkdir` rejects the queue:
later links never issue their request, their waiters reject before the
transfer `try`, and `Promise.all` rejects.  Returns the events, the indices
whose transfers were issued, and the first `mkdir` failure if any. -/
def runChain (mk : String → Option JsErr) :
    List (String × Nat) → List Ev × List Nat × Option JsErr
  | [] => ([], [], none)
  | (d, w) :: rest =>
    match mk d with
    | none =>
      let (evs, ws, e) := runChain mk rest
      (Ev.mkStart d :: Ev.mkDone d :: Ev.tStart w :: evs, w :: ws, e)
    | some e => ([Ev.mkStart d], [], some e)

/-- Settling of the issued transfers, in issuance order: each transfer
resolves (or rejects, error `tr i`) and its task immediately fires
`config.tick(local, remote, error)` — the `try`/`catch` of the file task
converts a transfer failure into the `false` result.  -/
def doneEvents (tr : Nat → Option String) : List Nat → List Ev
  | [] => []
  | i :: rest => Ev.tDone i (tr i) :: Ev.tick i (tr i) :: doneEvents tr rest

/-- `SSH.putDirectory`: event trace and outcome.  `dirs` is the remote
parent directory of each enumerated file (in scan order), `tr i` the
outcome of file `i`'s `putFile`, `mk d` the outcome of the single `mkdir`
issued for directory `d`.  When every `mkdir` succeeds the call returns
`results.every(i => i)`; a directory-creation failure rejects
`Promise.all` and `putDirectory` throws. -/
def putDirectoryRun (dirs : List String) (tr : Nat → Option String)
    (mk : String → Option JsErr) : List Ev × Except JsErr Bool :=
  let s := syncPhase dirs 0 []
  let syncEvs := s.2.1.map Ev.tStart
  let rc := runChain mk s.1
  match rc.2.2 with
  | some e => (syncEvs ++ rc.1, Except.error e)
  | none =>
    (syncEvs ++ rc.1 ++ doneEvents tr (s.2.1 ++ rc.2.1),
     Except.ok ((List.range dirs.length).all (fun i => (tr i).isNone)))

/-- The chunking loop of `SSH.putFiles`:
`for i in 0 .. ceil(n/m): chunk = files.slice(i*m, i*m+m)`.  Structural
fuel (`l.length` suffices, every chunk consumes at least one element) keeps
the definition kernel-computable.  With `maxAtOnce = 0` the source loop
would never terminate; the source asserts a finite number and the claims
use positive sizes, so the model returns no chunks there. -/
def chunksOfAux (m : Nat) : Nat → List Nat → List (List Nat)
  | _, [] => []
  | 0, _ :: _ => []
  | fuel + 1, x :: xs => (x :: xs.take m) :: chunksOfAux m fuel (xs.drop m)

def chunksOf (m : Nat) (l : List Nat) : List (List Nat) :=
  match m with
  | 0 => []
  | m' + 1 => chunksOfAux m' l.length l

/-- Per-chunk schedule of `putFiles`: all transfers of a chunk are issued
(synchronously, by `chunk.map(file => this.putFile(...))`), then the chunk's
`Promise.all` is awaited, so every member settles before anything else
happens; only if the whole chunk succeeded does the loop proceed to the
next chunk (a rejection makes `putFiles` throw and later chunks are never
issued). -/
def batchTrace (tr : Nat → Option String) : List (List Nat) → List Ev
  | [] => []
  | c :: rest =>
    c.map Ev.tStart ++ c.map (fun i => Ev.tDone i (tr i)) ++
      (if c.all (fun i => (tr i).isNone) then batchTrace tr rest else [])

/-- `SSH.putFiles` over files `0 .. n-1` with `maxAtOnce = m`. -/
def putFilesTrace (n m : Nat) (tr : Nat → Option String) : List Ev :=
  batchTrace tr (chunksOf m (List.range n))

/-- `a` occurs strictly before `b` somewhere in the trace. -/
def precedes (t : List Ev) (a b : Ev) : Prop :=
  ∃ l1 l2 l3, t = l1 ++ a :: l2 ++ b :: l3

lemma precedes_of_mem_append {l1 l2 : List Ev} {a b : Ev}
    (ha : a ∈ l1) (hb : b ∈ l2) : precedes (l1 ++ l2) a b := by
  obtain ⟨p, q, rfl⟩ := List.append_of_mem ha
  obtain ⟨r, s, rfl⟩ := List.append_of_mem hb
  exact ⟨p, q ++ r, s, by simp⟩

lemma precedes_append_left {t : List Ev} (p : List Ev) {a b : Ev}
    (h : precedes t a b) : precedes (p ++ t) a b := by
  obtain ⟨l1, l2, l3, rfl⟩ := h
  exact ⟨p ++ l1, l2, l3, by simp⟩

lemma precedes_append_right {t : List Ev} (s : List Ev) {a b : Ev}
    (h : precedes t a b) : precedes (t ++ s) a b := by
  obtain ⟨l1, l2, l3, rfl⟩ := h
  exact ⟨l1, l2, l3 ++ s, by simp⟩

lemma getElem?_append_length {α : Type} (l1 X : List α) :
    (l1 ++ X)[l1.length]? = X[0]? := by
  induction l1 with
  | nil => simp
  | cons x xs ih => simpa using ih

lemma not_precedes (t : List Ev) (a b : Ev)
    (h : ∀ m, m < t.length → ∀ n, n < t.length → m < n →
      ¬(t[m]? = some a ∧ t[n]? = some b)) :
    ¬ precedes t a b := by
  rintro ⟨l1, l2, l3, ht⟩
  have hlen : t.length = l1.length + l2.length + l3.length + 2 := by
    rw [ht]; simp only [List.length_append, List.length_cons]; omega
  have h1 : t[l1.length]? = some a := by
    rw [ht, List.getElem?_append_left (by simp), getElem?_append_length]
    simp
  have h2 : t[l1.length + l2.length + 1]? = some b := by
    rw [ht]
    have hx : l1.length + l2.length + 1 = (l1 ++ a :: l2).length := by
      simp only [List.length_append, List.length_cons]; omega
    rw [hx, getElem?_append_length]
    simp
  exact h l1.length (by omega) (l1.length + l2.length + 1) (by omega)
    (by omega) ⟨h1, h2⟩

/-! Helper notions for the putDirectory / putFiles theorems. -/

/-- The events the serialized directory queue produces when every `mkdir`
succeeds. -/
def chainEvents : List (String × Nat) → List Ev
  | [] => []
  | (d, w) :: rest => Ev.mkStart d :: Ev.mkDone d :: Ev.tStart w :: chainEvents rest

/-- Claim-side: one creation request and completion per directory, in
order. -/
def mkdirEvents : List String → List Ev
  | [] => []
  | d :: rest => Ev.mkStart d :: Ev.mkDone d :: mkdirEvents rest

/-- Claim-side: the distinct remote parent directories in discovery
order, relative to an already-created set. -/
def firstOccs (created : List String) : List String → List String
  | [] => []
  | d :: rest =>
    if d ∈ created then firstOccs created rest
    else d :: firstOccs (created ++ [d]) rest

def isMkEv : Ev → Bool
  | Ev.mkStart _ => true
  | Ev.mkDone _ => true
  | _ => false

def isTickEv : Ev → Bool
  | Ev.tick _ _ => true
  | _ => false

lemma runChain_ok {mk : String → Option JsErr} (h : ∀ d, mk d = none) :
    ∀ chain, runChain mk chain = (chainEvents chain, chain.map Prod.snd, none) := by
  intro chain
  induction chain with
  | nil => rfl
  | cons dw rest ih =>
    rcases dw with ⟨d, w⟩
    simp [runChain, chainEvents, h d, ih]

lemma chainEvents_append (a b : List (String × Nat)) :
    chainEvents (a ++ b) = chainEvents a ++ chainEvents b := by
  induction a with
  | nil => rfl
  | cons dw rest ih => rcases dw with ⟨d, w⟩; simp [chainEvents, ih]

lemma putDirectoryRun_ok (dirs : List String) (tr : Nat → Option String)
    (mk : String → Option JsErr) (h : ∀ d, mk d = none) :
    putDirectoryRun dirs tr mk =
      ((syncPhase dirs 0 []).2.1.map Ev.tStart ++
         chainEvents (syncPhase dirs 0 []).1 ++
         doneEvents tr ((syncPhase dirs 0 []).2.1 ++
           (syncPhase dirs 0 []).1.map Prod.snd),
       Except.ok ((List.range dirs.length).all (fun i => (tr i).isNone))) := by
  simp only [putDirectoryRun, runChain_ok h]

lemma syncPhase_fst_map :
    ∀ (dirs : List String) (i : Nat) (created : List String),
      (syncPhase dirs i created).1.map Prod.fst = firstOccs created dirs := by
  intro dirs
  induction dirs with
  | nil => intro i created; rfl
  | cons d rest ih =>
    intro i created
    by_cases hd : d ∈ created <;> simp [syncPhase, firstOccs, hd, ih]

lemma firstOccs_nodup :
    ∀ (dirs created : List String),
      (firstOccs created dirs).Nodup ∧ ∀ d ∈ firstOccs created dirs, d ∉ created := by
  intro dirs
  induction dirs with
  | nil => intro created; simp [firstOccs]
  | cons d rest ih =>
    intro created
    by_cases hd : d ∈ created
    · simpa [firstOccs, hd] using ih created
    · have h2 := ih (created ++ [d])
      refine ⟨?_, ?_⟩
      · simp only [firstOccs, hd, if_false]
        refine List.nodup_cons.mpr ⟨?_, h2.1⟩
        intro hmem
        exact (h2.2 d hmem) (by simp)
      · intro x hx
        simp only [firstOccs, hd, if_false, List.mem_cons] at hx
        rcases hx with rfl | hx
        · exact hd
        · intro hxc
          exact (h2.2 x hx) (by simp [hxc])

lemma syncPhase_perm :
    ∀ (dirs : List String) (i : Nat) (created : List String),
      List.Perm ((syncPhase dirs i created).1.map Prod.snd ++ (syncPhase dirs i created).2.1)
        (List.range' i dirs.length) := by
  intro dirs
  induction dirs with
  | nil => intro i created; simp [syncPhase]
  | cons d rest ih =>
    intro i created
    simp only [List.length_cons, List.range'_succ]
    by_cases hd : d ∈ created
    · simp only [syncPhase, hd, if_true]
      exact List.Perm.trans List.perm_middle
        (List.Perm.cons i (ih (i + 1) created))
    · simp only [syncPhase, hd, if_false, List.map_cons, List.cons_append]
      exact List.Perm.cons i (ih (i + 1) (created ++ [d]))

lemma filter_isMk_map_tStart (l : List Nat) :
    (l.map Ev.tStart).filter isMkEv = [] := by
  induction l with
  | nil => rfl
  | cons x xs ih => simp [isMkEv, ih]

lemma filter_isMk_chainEvents (chain : List (String × Nat)) :
    (chainEvents chain).filter isMkEv = mkdirEvents (chain.map Prod.fst) := by
  induction chain with
  | nil => rfl
  | cons dw rest ih =>
    rcases dw with ⟨d, w⟩
    simp [chainEvents, mkdirEvents, isMkEv, ih]

lemma filter_isMk_doneEvents (tr : Nat → Option String) (l : List Nat) :
    (doneEvents tr l).filter isMkEv = [] := by
  induction l with
  | nil => rfl
  | cons x xs ih => simp [doneEvents, isMkEv, ih]

lemma filter_isTick_map_tStart (l : List Nat) :
    (l.map Ev.tStart).filter isTickEv = [] := by
  induction l with
  | nil => rfl
  | cons x xs ih => simp [isTickEv, ih]

lemma filter_isTick_chainEvents (chain : List (String × Nat)) :
    (chainEvents chain).filter isTickEv = [] := by
  induction chain with
  | nil => rfl
  | cons dw rest ih =>
    rcases dw with ⟨d, w⟩
    simp [chainEvents, isTickEv, ih]

lemma filter_isTick_doneEvents (tr : Nat → Option String) (l : List Nat) :
    (doneEvents tr l).filter isTickEv = l.map (fun i => Ev.tick i (tr i)) := by
  induction l with
  | nil => rfl
  | cons x xs ih => simp [doneEvents, isTickEv, ih]

lemma tDone_mem_doneEvents {tr : Nat → Option String} {l : List Nat} {i : Nat}
    (h : i ∈ l) : Ev.tDone i (tr i) ∈ doneEvents tr l := by
  induction l with
  | nil => cases h
  | cons x xs ih =>
    rcases List.mem_cons.mp h with rfl | h2
    · simp [doneEvents]
    · simp [doneEvents, ih h2]

lemma tStart_not_mem_doneEvents (tr : Nat → Option String) (l : List Nat) (i : Nat) :
    Ev.tStart i ∉ doneEvents tr l := by
  induction l with
  | nil => simp [doneEvents]
  | cons x xs ih => simp [doneEvents, ih]

lemma tDone_not_mem_map_tStart (l : List Nat) (j : Nat) (e : Option String) :
    Ev.tDone j e ∉ l.map Ev.tStart := by
  simp

lemma tDone_not_mem_chainEvents (chain : List (String × Nat)) (j : Nat) (e : Option String) :
    Ev.tDone j e ∉ chainEvents chain := by
  induction chain with
  | nil => simp [chainEvents]
  | cons dw rest ih =>
    rcases dw with ⟨d, w⟩
    simp [chainEvents, ih]

lemma mkStart_not_mem_map_tStart (l : List Nat) (d : String) :
    Ev.mkStart d ∉ l.map Ev.tStart := by
  simp

lemma mkStart_not_mem_doneEvents (tr : Nat → Option String) (l : List Nat) (d : String) :
    Ev.mkStart d ∉ doneEvents tr l := by
  induction l with
  | nil => simp [doneEvents]
  | cons x xs ih => simp [doneEvents, ih]

/-! ## SSH.runCommandsInShell -/

/-- A queue entry: either a bare string (`_.isString(cmd)` → normalized to
`{cmd, output: false}`) or a structured `ICommand`. -/
inductive CEntry
  | str (s : String)
  | cmd (s : String) (output : Bool)
deriving DecidableEq, Repr

/-- The normalization performed at the top of the prompt handler. -/
def normalize : CEntry → String × Bool
  | CEntry.str s => (s, false)
  | CEntry.cmd s o => (s, o)

/-- Events delivered to the driver by the wrapped channel: prompt events
from the transformer, stdout/stderr data chunks, and the channel close. -/
inductive SEv
  | prompt
  | dataOut (c : String)
  | dataErr (c : String)
  | close
deriving DecidableEq, Repr

/-- Driver state: the remaining command queue, the `recording` flag, the
accumulated `output.stdout` / `output.stderr` chunk lists, everything
written to the channel, and whether `channel.close()` was requested. -/
structure ShSt where
  queue : List CEntry
  recording : Bool
  stdout : List String
  stderr : List String
  written : List String
  closeRequested : Bool
deriving DecidableEq, Repr

/-- One event of the `runCommandsInShell` handlers.  On `prompt`:
`recording = false`, shift the queue; a shifted entry is normalized and its
text plus `"\n"` written (setting `recording` if it asks for output); an
empty queue closes the channel.  Data chunks are appended only while
`recording`.  The close event is handled by the runner, not here. -/
def shStep (st : ShSt) : SEv → ShSt
  | SEv.prompt =>
    match st.queue with
    | [] =>
      ⟨[], false, st.stdout, st.stderr, st.written, true⟩
    | e :: rest =>
      ⟨rest, (normalize e).2, st.stdout, st.stderr,
        st.written ++ [(normalize e).1 ++ "\n"], st.closeRequested⟩
  | SEv.dataOut c =>
    if st.recording then
      ⟨st.queue, st.recording, st.stdout ++ [c], st.stderr, st.written, st.closeRequested⟩
    else st
  | SEv.dataErr c =>
    if st.recording then
      ⟨st.queue, st.recording, st.stdout, st.stderr ++ [c], st.written, st.closeRequested⟩
    else st
  | SEv.close => st

/-- The close handler: `if (output.stderr.length) reject(joined.trim)
else resolve(joined.trim)`. -/
def closeResult (st : ShSt) : Except String String :=
  if st.stderr.isEmpty then Except.ok (String.join st.stdout).trim
  else Except.error (String.join st.stderr).trim

/-- Deliver events until the channel closes; the promise settles at the
first close event and later events are irrelevant. -/
def runShell (st : ShSt) : List SEv → ShSt × Option (Except String String)
  | [] => (st, none)
  | SEv.close :: _ => (st, some (closeResult st))
  | e :: rest => runShell (shStep st e) rest

/-- `SSH.runCommandsInShell(commands)` driving the given delivered-event
list, starting from the initial state (full queue, not recording). -/
def runCommandsInShell (cmds : List CEntry) (evs : List SEv) :
    ShSt × Option (Except String String) :=
  runShell ⟨cmds, false, [], [], [], false⟩ evs

/-! Claim-side reformulation: the command active after `pc` observed
prompts is `cmds[pc-1]`, and a data chunk is captured exactly when that
command asked for output.  These functions are indexed directly by prompt
count, independently of the driver's state machine. -/

/-- Whether output is being recorded after `pc` prompts have been
observed: the `pc`-th dispatched command exists and is marked
`output: true`. -/
def activeOutput (cmds : List CEntry) : Nat → Bool
  | 0 => false
  | k + 1 =>
    match cmds[k]? with
    | some e => (normalize e).2
    | none => false

/-- Number of prompt events in a delivered-event list. -/
def nPrompts : List SEv → Nat
  | [] => 0
  | SEv.prompt :: rest => nPrompts rest + 1
  | _ :: rest => nPrompts rest

/-- The stdout chunks captured while processing `evs`, `pc` prompts having
been observed already. -/
def capturedOut (cmds : List CEntry) : List SEv → Nat → List String
  | [], _ => []
  | SEv.prompt :: rest, pc => capturedOut cmds rest (pc + 1)
  | SEv.dataOut c :: rest, pc =>
    (if activeOutput cmds pc then [c] else []) ++ capturedOut cmds rest pc
  | SEv.dataErr _ :: rest, pc => capturedOut cmds rest pc
  | SEv.close :: rest, pc => capturedOut cmds rest pc

/-- The stderr chunks captured while processing `evs`. -/
def capturedErr (cmds : List CEntry) : List SEv → Nat → List String
  | [], _ => []
  | SEv.prompt :: rest, pc => capturedErr cmds rest (pc + 1)
  | SEv.dataOut _ :: rest, pc => capturedErr cmds rest pc
  | SEv.dataErr c :: rest, pc =>
    (if activeOutput cmds pc then [c] else []) ++ capturedErr cmds rest pc
  | SEv.close :: rest, pc => capturedErr cmds rest pc

/-- The channel writes issued while processing `evs`: one per prompt, the
next queued command's text plus a newline. -/
def writesFrom (cmds : List CEntry) : List SEv → Nat → List String
  | [], _ => []
  | SEv.prompt :: rest, pc =>
    (match cmds[pc]? with
     | some e => [(normalize e).1 ++ "\n"]
     | none => []) ++ writesFrom cmds rest (pc + 1)
  | _ :: rest, pc => writesFrom cmds rest pc

/-- Whether some prompt found the queue empty while processing `evs`. -/
def closeReqFrom (cmds : List CEntry) : List SEv → Nat → Bool
  | [], _ => false
  | SEv.prompt :: rest, pc => cmds[pc]?.isNone || closeReqFrom cmds rest (pc + 1)
  | _ :: rest, pc => closeReqFrom cmds rest pc

/-! ## SSH.wrapChannel: the prompt-detecting stream transformer -/

/-- `chunk.toString().split(/(\r\n)/g)`: split on CRLF keeping the
separators as elements, exactly as a capturing-group split does (so
`"a\r\n"` yields `["a", "\r\n", ""]`). -/
def splitCRLF : List Char → List Char → List String
  | [], cur => [String.mk cur.reverse]
  | '\r' :: '\n' :: rest, cur =>
    String.mk cur.reverse :: "\r\n" :: splitCRLF rest []
  | c :: rest, cur => splitCRLF rest (c :: cur)

/-- The test `/^\[sudo\] password for.*$/.test(chunkString)`: anchored at
both ends, with `.` not matching line terminators, this holds exactly when
the sub-chunk starts with `"[sudo] password for"` and the remainder
contains no `'\n'` or `'\r'`. -/
def isPasswordLine (s : String) : Bool :=
  "[sudo] password for".data.isPrefixOf s.data &&
    (s.data.drop 19).all (fun c => !(c = '\n' || c = '\r'))

/-- The test `/\$ $/.test(chunkString)`: the sub-chunk ends with `"$ "`. -/
def isPromptChunk (s : String) : Bool :=
  ['$', ' '].isSuffixOf s.data

/-- Events the transformer emits on the channel. -/
inductive TfEv
  | password
  | prompt
deriving DecidableEq, Repr

/-- One sub-chunk through the transform of `wrapChannel`.  The state is
`channel.ignoreChunk`.  A password line emits `password` and arms
`ignoreChunk = "\r\n"`; a chunk ending in `"$ "` emits `prompt`; a chunk
equal to the armed `ignoreChunk` is swallowed and disarms it; anything
else is pushed through unchanged. -/
def tfStep (ig : Option String) (c : String) :
    Option String × List TfEv × List String :=
  if isPasswordLine c then (some "\r\n", [TfEv.password], [])
  else if isPromptChunk c then (ig, [TfEv.prompt], [])
  else if ig = some c then (none, [], [])
  else (ig, [], [c])

/-- All sub-chunks of one incoming chunk, in order, threading
`ignoreChunk`. -/
def tfParts (ig : Option String) : List String → Option String × List TfEv × List String
  | [] => (ig, [], [])
  | c :: rest =>
    let r1 := tfStep ig c
    let r2 := tfParts r1.1 rest
    (r2.1, r1.2.1 ++ r2.2.1, r1.2.2 ++ r2.2.2)

/-- One incoming byte chunk through the transformer: split on CRLF
boundaries, then classify each sub-chunk. -/
def tfChunk (ig : Option String) (chunk : String) :
    Option String × List TfEv × List String :=
  tfParts ig (splitCRLF chunk.data [])

/-- A whole sequence of incoming chunks (the transformer state lives on the
channel object and persists across chunks). -/
def tfRun (ig : Option String) : List String → Option String × List TfEv × List String
  | [] => (ig, [], [])
  | c :: rest =>
    let r1 := tfChunk ig c
    let r2 := tfRun r1.1 rest
    (r2.1, r1.2.1 ++ r2.2.1, r1.2.2 ++ r2.2.2)

/-! Claim-side classifier for C8, written from the claim's wording: the
sentinel is a one-shot Boolean armed by a password detection, the armed
sentinel value being the CRLF line terminator. -/

/-- Claim-side single-sub-chunk classification: password pattern → password
event, arm the one-shot sentinel; trailing `"$ "` → prompt event; a
sub-chunk equal to the armed sentinel line terminator → swallowed once;
everything else forwarded unchanged. -/
def claimStep (armed : Bool) (c : String) : Bool × List TfEv × List String :=
  if isPasswordLine c then (true, [TfEv.password], [])
  else if isPromptChunk c then (armed, [TfEv.prompt], [])
  else if armed && c = "\r\n" then (false, [], [])
  else (armed, [], [c])

/-- Claim-side classification of a sub-chunk list. -/
def claimClassify (armed : Bool) : List String → Bool × List TfEv × List String
  | [] => (armed, [], [])
  | c :: rest =>
    let r1 := claimStep armed c
    let r2 := claimClassify r1.1 rest
    (r2.1, r1.2.1 ++ r2.2.1, r1.2.2 ++ r2.2.2)

/-- The correspondence between the source transformer state
(`ignoreChunk : Option String`, only ever `null` or `"\r\n"`) and the
claim's one-shot armed flag. -/
def armedToIgnore (armed : Bool) : Option String :=
  if armed then some "\r\n" else none

/-! ## SSH.sudoShell password handler -/

/-- The `channel.once("password", ...)` handler of `sudoShell`: writes the
configured credential plus a line terminator on the first password event
only. -/
def onceWrites (pw : String) (fired : Bool) : List TfEv → List String
  | [] => []
  | TfEv.password :: rest =>
    if fired then onceWrites pw true rest
    else (pw ++ "\n") :: onceWrites pw true rest
  | TfEv.prompt :: rest => onceWrites pw fired rest

/-- The channel writes `sudoShell` performs in reaction to the remote
output `chunks`, with privileged mode enabled or not: when enabled, a
once-handler answers the transformer's password events with the
credential; when disabled `sudoShell` degrades to `shell()`, which installs
no password handler. -/
def sudoShellWrites (sudoModeEnabled : Bool) (sudoPassword : String)
    (chunks : List String) : List String :=
  if sudoModeEnabled then
    onceWrites sudoPassword false (tfRun none chunks).2.1
  else []

/-! ## Claim theorems -/

/-- C5: for a remote path whose target already exists, `mkdir` (sftp mode)
succeeds without issuing any creation request when the target is a
directory — so calling it twice on the same directory path succeeds both
times and never consumes a creation response — and fails with the
not-a-directory error when the target exists but is not a directory
(consuming no creation response either).  Script consumption makes the
"no creation attempt" part visible: the `mks` stream is untouched. -/
theorem c5_theorem :
    ∀ (p : List String) (sts : List StatResp) (mks : List MkResp),
      mkdir p ⟨StatResp.isDir :: StatResp.isDir :: sts, mks⟩ =
        (Except.ok (), ⟨StatResp.isDir :: sts, mks⟩) ∧
      mkdir p ⟨StatResp.isDir :: sts, mks⟩ = (Except.ok (), ⟨sts, mks⟩) ∧
      mkdir p ⟨StatResp.isFile :: sts, mks⟩ =
        (Except.error
          ⟨"mkdir() failed, target already exists and is not a directory", none⟩,
         ⟨sts, mks⟩) := by
  intro p sts mks
  refine ⟨?_, ?_, ?_⟩
  · rw [mkdir]; simp [mkdirSftp, popStat]
  · rw [mkdir]; simp [mkdirSftp, popStat]
  · rw [mkdir]; simp [mkdirSftp, popStat, isMissingAncestor]

/-- C4 (amended): `mkdir` (sftp mode) recovers a first-attempt failure of
the missing-ancestor class (message `"No such file"` or code `"ENOENT"`)
exactly once — it creates the parent directory and re-attempts a single
time, the retry's outcome being final whatever it is — and propagates any
other first-attempt failure unmodified with no parent creation and no
retry.  `putFile`, however, recovers only a failure whose *message* is
exactly `"No such file"`: a failure carrying merely an `ENOENT` code
propagates unrecovered (see `c4_counterexample`); when `putFile` does
recover, the parent is created and the transfer retried exactly once, any
second failure propagating unmodified, and any non-`"No such file"`
failure propagates with no recovery.  In the scripts, the parent-creation
`mkdir` call is answered by a leading `StatResp.isDir` (parent already
present). -/
theorem c4_theorem :
    (∀ (x : String) (xs : List String) (e : JsErr) (sts : List StatResp)
        (mks : List MkResp),
      isMissingAncestor (transformError e) = true →
      mkdir (x :: xs) ⟨StatResp.noStat :: StatResp.isDir :: sts, MkResp.err e :: mks⟩ =
        (match mkdirSftp ⟨sts, mks⟩ with
         | (Except.ok _, r) => (Except.ok (), r)
         | (Except.error e2, r) => (Except.error e2, r))) ∧
    (∀ (p : List String) (e : JsErr) (sts : List StatResp) (mks : List MkResp),
      isMissingAncestor (transformError e) = false →
      mkdir p ⟨StatResp.noStat :: sts, MkResp.err e :: mks⟩ =
        (Except.error (transformError e), ⟨sts, mks⟩)) ∧
    (∀ (rf : List String) (e : JsErr) (o2 : MkResp) (fps : List MkResp)
        (sts : List StatResp) (mks : List MkResp),
      e.message = "No such file" →
      putFile rf ⟨MkResp.err e :: o2 :: fps, ⟨StatResp.isDir :: sts, mks⟩⟩ =
        ((match o2 with
          | MkResp.ok => Except.ok ()
          | MkResp.err e2 => Except.error e2), ⟨fps, ⟨sts, mks⟩⟩)) ∧
    (∀ (rf : List String) (e : JsErr) (fps : List MkResp) (rem : Remote),
      e.message ≠ "No such file" →
      putFile rf ⟨MkResp.err e :: fps, rem⟩ = (Except.error e, ⟨fps, rem⟩)) := by
  refine ⟨?_, ?_, ?_, ?_⟩
  · intro x xs e sts mks hcls
    rw [mkdir]
    simp only [mkdirSftp, popStat, popMk, hcls, if_true]
    rw [mkdir]
    simp [mkdirSftp, popStat]
  · intro p e sts mks hcls
    rw [mkdir]
    simp [mkdirSftp, popStat, popMk, hcls]
  · intro rf e o2 fps sts mks hmsg
    simp only [putFile, popFastPut, hmsg, if_true]
    rw [mkdir]
    simp only [mkdirSftp, popStat]
    cases o2 <;> simp
  · intro rf e fps rem hmsg
    simp [putFile, popFastPut, hmsg]

/-- Witness for `c4_theorem`, each conjunct applied at a concrete input:
a genuine `ENOENT` creation failure recovered by `mkdir` with a successful
retry; a channel-level failure propagated by `mkdir`; a `"No such file"`
transfer failure recovered by `putFile` with a successful retry; a
permission failure propagated by `putFile`. -/
theorem c4_witness :
    mkdir ["a", "b"]
        ⟨[StatResp.noStat, StatResp.isDir, StatResp.noStat],
         [MkResp.err ⟨"ENOENT: no such file or directory, mkdir b", none⟩, MkResp.ok]⟩ =
      (Except.ok (), ⟨[], []⟩) ∧
    mkdir ["a", "b"]
        ⟨[StatResp.noStat], [MkResp.err ⟨"Permission denied", none⟩]⟩ =
      (Except.error ⟨"Permission denied", none⟩, ⟨[], []⟩) ∧
    putFile ["a", "b"]
        ⟨[MkResp.err ⟨"No such file", none⟩, MkResp.ok], ⟨[StatResp.isDir], []⟩⟩ =
      (Except.ok (), ⟨[], ⟨[], []⟩⟩) ∧
    putFile ["a", "b"]
        ⟨[MkResp.err ⟨"Permission denied", none⟩], ⟨[StatResp.isDir], []⟩⟩ =
      (Except.error ⟨"Permission denied", none⟩, ⟨[], ⟨[StatResp.isDir], []⟩⟩) := by
  refine ⟨?_, ?_, ?_, ?_⟩
  · have h := c4_theorem.1 "a" ["b"]
      ⟨"ENOENT: no such file or directory, mkdir b", none⟩ [StatResp.noStat] [MkResp.ok]
      (by decide)
    rw [h]
    rfl
  · exact c4_theorem.2.1 ["a", "b"] ⟨"Permission denied", none⟩ [] [] (by decide)
  · exact c4_theorem.2.2.1 ["a", "b"] ⟨"No such file", none⟩ MkResp.ok [] [] []
      (by decide)
  · exact c4_theorem.2.2.2 ["a", "b"] ⟨"Permission denied", none⟩ [] ⟨[StatResp.isDir], []⟩
      (by decide)

/-- C4 counterexample: the claim covers `putFile` failures of the class
"message `"No such file"` *or* code `ENOENT`", but `putFile`'s guard tests
only the message.  With a first `fastPut` failure carrying an `ENOENT`
code and a different message, and scripts under which the claimed
recovery would succeed (a parent `mkdir` answered by `isDir` and a second
`fastPut` answered `ok`), the call propagates the error immediately: the
second `fastPut` response and the whole recovery script are left
unconsumed, and the result is the original error instead of the success
the claimed mkdir-then-retry would produce. -/
theorem c4_counterexample :
    putFile ["a", "b"]
        ⟨[MkResp.err ⟨"boom", some "ENOENT"⟩, MkResp.ok], ⟨[StatResp.isDir], []⟩⟩ =
      (Except.error ⟨"boom", some "ENOENT"⟩, ⟨[MkResp.ok], ⟨[StatResp.isDir], []⟩⟩) ∧
    (putFile ["a", "b"]
        ⟨[MkResp.err ⟨"boom", some "ENOENT"⟩, MkResp.ok], ⟨[StatResp.isDir], []⟩⟩).1 ≠
      Except.ok () := by
  refine ⟨by simp [putFile, popFastPut], ?_⟩
  simp [putFile, popFastPut]

/-- C10: whenever `putFiles` is called without a caller-supplied SFTP
handle, the internally acquired handle is never released: the `finally`
guard tests the local `sftp` binding, which is non-null by construction,
instead of `givenSftp`, so `sftp.end()` is unreachable on every path,
success or failure. -/
theorem c10_theorem :
    putFilesCleanup none true = false ∧ putFilesCleanup none false = false ∧
      ∀ (g : Option Nat) (s : Bool), putFilesCleanup g s = false := by
  refine ⟨rfl, rfl, ?_⟩
  intro g s
  cases g <;> rfl

lemma tfStep_claim (b : Bool) (c : String) :
    tfStep (armedToIgnore b) c =
      (armedToIgnore (claimStep b c).1, (claimStep b c).2.1, (claimStep b c).2.2) := by
  unfold tfStep claimStep armedToIgnore
  by_cases hpw : isPasswordLine c
  · simp [hpw]
  · by_cases hpr : isPromptChunk c
    · cases b <;> simp [hpw, hpr]
    · cases b with
      | false => simp [hpw, hpr]
      | true =>
        by_cases hc : c = "\r\n"
        · subst hc
          simp [hpw, hpr]
        · simp [hpw, hpr, hc, Option.some.injEq, Ne.symm hc]

lemma tfParts_claim (parts : List String) : ∀ b : Bool,
    tfParts (armedToIgnore b) parts =
      (armedToIgnore (claimClassify b parts).1,
       (claimClassify b parts).2.1, (claimClassify b parts).2.2) := by
  induction parts with
  | nil => intro b; rfl
  | cons c rest ih =>
    intro b
    simp only [tfParts, claimClassify, tfStep_claim b c, ih (claimStep b c).1]

/-- C8: per incoming byte chunk, the `wrapChannel` transform is exactly
the claim's classification of the CRLF-split sub-chunks: a sub-chunk
matching the password pattern raises a `password` event and arms the
one-shot CRLF sentinel, a sub-chunk ending in `"$ "` raises a `prompt`
event, the next sub-chunk equal to the armed sentinel is swallowed exactly
once (disarming it), and every other sub-chunk is forwarded unchanged —
for any incoming transformer state, here ranged over by the armed flag
(`ignoreChunk` is only ever `null` or `"\r\n"` in the source). -/
theorem c8_theorem :
    ∀ (armed : Bool) (chunk : String),
      tfChunk (armedToIgnore armed) chunk =
        (armedToIgnore (claimClassify armed (splitCRLF chunk.data [])).1,
         (claimClassify armed (splitCRLF chunk.data [])).2.1,
         (claimClassify armed (splitCRLF chunk.data [])).2.2) := by
  intro armed chunk
  exact tfParts_claim (splitCRLF chunk.data []) armed

lemma password_mem_tfParts {parts : List String} {p : String}
    (hp : p ∈ parts) (hpw : isPasswordLine p = true) :
    ∀ ig, TfEv.password ∈ (tfParts ig parts).2.1 := by
  induction parts with
  | nil => cases hp
  | cons c rest ih =>
    intro ig
    rcases List.mem_cons.mp hp with h | h
    · subst h
      simp [tfParts, tfStep, hpw]
    · simp only [tfParts, List.mem_append]
      exact Or.inr (ih h _)

lemma password_mem_tfRun {chunks : List String} {c : String} {p : String}
    (hc : c ∈ chunks) (hp : p ∈ splitCRLF c.data []) (hpw : isPasswordLine p = true) :
    ∀ ig, TfEv.password ∈ (tfRun ig chunks).2.1 := by
  induction chunks with
  | nil => cases hc
  | cons x rest ih =>
    intro ig
    rcases List.mem_cons.mp hc with h | h
    · subst h
      simp only [tfRun, List.mem_append]
      exact Or.inl (password_mem_tfParts hp hpw ig)
    · simp only [tfRun, List.mem_append]
      exact Or.inr (ih h _)

lemma onceWrites_fired (pw : String) (evs : List TfEv) :
    onceWrites pw true evs = [] := by
  induction evs with
  | nil => rfl
  | cons e rest ih => cases e <;> simp [onceWrites, ih]

lemma onceWrites_of_mem (pw : String) {evs : List TfEv}
    (h : TfEv.password ∈ evs) : onceWrites pw false evs = [pw ++ "\n"] := by
  induction evs with
  | nil => cases h
  | cons e rest ih =>
    cases e with
    | password => simp [onceWrites, onceWrites_fired]
    | prompt =>
      rcases List.mem_cons.mp h with h1 | h1
      · cases h1
      · simp [onceWrites, ih h1]

lemma no_password_in_tfParts_out {parts : List String} :
    ∀ ig, ∀ o ∈ (tfParts ig parts).2.2, isPasswordLine o = false := by
  induction parts with
  | nil => intro ig o ho; cases ho
  | cons c rest ih =>
    intro ig o ho
    simp only [tfParts, List.mem_append] at ho
    rcases ho with ho | ho
    · unfold tfStep at ho
      by_cases hpw : isPasswordLine c
      · simp [hpw] at ho
      · by_cases hpr : isPromptChunk c
        · simp [hpw, hpr] at ho
        · by_cases hig : ig = some c
          · simp [hpw, hpr, hig] at ho
          · simp [hpw, hpr, hig] at ho
            subst ho
            exact eq_false_of_ne_true hpw
    · exact ih _ o ho

lemma no_password_in_tfRun_out {chunks : List String} :
    ∀ ig, ∀ o ∈ (tfRun ig chunks).2.2, isPasswordLine o = false := by
  induction chunks with
  | nil => intro ig o ho; cases ho
  | cons c rest ih =>
    intro ig o ho
    simp only [tfRun, List.mem_append] at ho
    rcases ho with ho | ho
    · exact no_password_in_tfParts_out _ o ho
    · exact ih _ o ho

/-- C9: in a shell session with privileged mode enabled and a credential
configured, if the remote output contains a sub-chunk matching the
password pattern, then the credential followed by a line terminator is
written to the channel exactly once (the `once` handler fires on the first
password event only, however many occur), and no password-prompt line is
ever forwarded into the transformed output the driver records from. -/
theorem c9_theorem (pw : String) (chunks : List String)
    (h : ∃ c ∈ chunks, ∃ p ∈ splitCRLF c.data [], isPasswordLine p = true) :
    sudoShellWrites true pw chunks = [pw ++ "\n"] ∧
      ∀ o ∈ (tfRun none chunks).2.2, isPasswordLine o = false := by
  obtain ⟨c, hc, p, hp, hpw⟩ := h
  constructor
  · unfold sudoShellWrites
    simp only [if_true]
    exact onceWrites_of_mem pw (password_mem_tfRun hc hp hpw none)
  · exact no_password_in_tfRun_out none

/-- Witness for `c9_theorem`: a remote chunk containing the sudo password
prompt for user `alice`, with credential `"hunter2"`. -/
theorem c9_witness :
    sudoShellWrites true "hunter2" ["[sudo] password for alice:\r\n"] =
        ["hunter2" ++ "\n"] ∧
      ∀ o ∈ (tfRun none ["[sudo] password for alice:\r\n"]).2.2,
        isPasswordLine o = false := by
  exact c9_theorem "hunter2" ["[sudo] password for alice:\r\n"]
    ⟨"[sudo] password for alice:\r\n", by decide,
     "[sudo] password for alice:", by decide, by decide⟩

lemma drop_eq_nil_of_getElem?_eq_none {cmds : List CEntry} {pc : Nat}
    (h : cmds.drop pc = []) : cmds[pc]? = none := by
  have : cmds.length ≤ pc := by
    by_contra hlt
    push_neg at hlt
    have := List.drop_eq_nil_iff.mp h
    omega
  exact List.getElem?_eq_none this

lemma drop_cons_getElem? {cmds : List CEntry} {pc : Nat} {x : CEntry} {q : List CEntry}
    (h : cmds.drop pc = x :: q) : cmds[pc]? = some x ∧ cmds.drop (pc + 1) = q := by
  constructor
  · have := List.getElem?_drop cmds pc 0
    rw [h] at this
    simpa using this.symm
  · have : (cmds.drop pc).drop 1 = q := by rw [h]; rfl
    rwa [List.drop_drop] at this

/-- The driver state after processing `evs` from the state reached after
`pc` prompts: the queue is the not-yet-dispatched suffix, the recording
flag is that of the active command, and the accumulators grow by the
claim-side capture/write/close functions. -/
lemma shStep_fold (cmds : List CEntry) :
    ∀ (evs : List SEv) (pc : Nat) (so se wr : List String) (cr : Bool),
      List.foldl shStep ⟨cmds.drop pc, activeOutput cmds pc, so, se, wr, cr⟩ evs =
        ⟨cmds.drop (pc + nPrompts evs), activeOutput cmds (pc + nPrompts evs),
         so ++ capturedOut cmds evs pc, se ++ capturedErr cmds evs pc,
         wr ++ writesFrom cmds evs pc, cr || closeReqFrom cmds evs pc⟩ := by
  intro evs
  induction evs with
  | nil =>
    intro pc so se wr cr
    simp [nPrompts, capturedOut, capturedErr, writesFrom, closeReqFrom]
  | cons e rest ih =>
    intro pc so se wr cr
    cases e with
    | prompt =>
      rcases hq : cmds.drop pc with _ | ⟨x, q⟩
      · have hnone := drop_eq_nil_of_getElem?_eq_none hq
        have hnil : cmds.drop (pc + 1) = [] := by
          have h1 : (cmds.drop pc).drop 1 = [] := by rw [hq]; rfl
          rwa [List.drop_drop] at h1
        have hact : activeOutput cmds (pc + 1) = false := by
          simp [activeOutput, hnone]
        have hstep :
            List.foldl shStep ⟨[], activeOutput cmds pc, so, se, wr, cr⟩
              (SEv.prompt :: rest) =
            List.foldl shStep
              ⟨cmds.drop (pc + 1), activeOutput cmds (pc + 1), so, se, wr, true⟩ rest := by
          rw [List.foldl_cons]
          congr 1
          rw [hnil, hact]
          simp [shStep]
        rw [hstep, ih (pc + 1) so se wr true]
        have harith : pc + 1 + nPrompts rest = pc + nPrompts (SEv.prompt :: rest) := by
          show pc + 1 + nPrompts rest = pc + (nPrompts rest + 1)
          omega
        rw [harith]
        simp [capturedOut, capturedErr, writesFrom, closeReqFrom, hnone]
      · obtain ⟨hsome, hdrop⟩ := drop_cons_getElem? hq
        have hact : activeOutput cmds (pc + 1) = (normalize x).2 := by
          simp [activeOutput, hsome]
        have hstep :
            List.foldl shStep ⟨x :: q, activeOutput cmds pc, so, se, wr, cr⟩
              (SEv.prompt :: rest) =
            List.foldl shStep
              ⟨cmds.drop (pc + 1), activeOutput cmds (pc + 1), so, se,
                wr ++ [(normalize x).1 ++ "\n"], cr⟩ rest := by
          rw [List.foldl_cons]
          congr 1
          rw [hdrop, hact]
          simp [shStep]
        rw [hstep, ih (pc + 1) so se (wr ++ [(normalize x).1 ++ "\n"]) cr]
        have harith : pc + 1 + nPrompts rest = pc + nPrompts (SEv.prompt :: rest) := by
          show pc + 1 + nPrompts rest = pc + (nPrompts rest + 1)
          omega
        rw [harith]
        simp [capturedOut, capturedErr, writesFrom, closeReqFrom, hsome]
    | dataOut c =>
      by_cases hact : activeOutput cmds pc = true
      · have hstep :
            List.foldl shStep ⟨cmds.drop pc, activeOutput cmds pc, so, se, wr, cr⟩
              (SEv.dataOut c :: rest) =
            List.foldl shStep
              ⟨cmds.drop pc, activeOutput cmds pc, so ++ [c], se, wr, cr⟩ rest := by
          rw [List.foldl_cons]
          congr 1
          simp [shStep, hact]
        rw [hstep, ih pc (so ++ [c]) se wr cr]
        simp [capturedOut, capturedErr, writesFrom, closeReqFrom, nPrompts, hact]
      · have hstep :
            List.foldl shStep ⟨cmds.drop pc, activeOutput cmds pc, so, se, wr, cr⟩
              (SEv.dataOut c :: rest) =
            List.foldl shStep
              ⟨cmds.drop pc, activeOutput cmds pc, so, se, wr, cr⟩ rest := by
          rw [List.foldl_cons]
          congr 1
          simp [shStep, hact]
        rw [hstep, ih pc so se wr cr]
        simp [capturedOut, capturedErr, writesFrom, closeReqFrom, nPrompts, hact]
    | dataErr c =>
      by_cases hact : activeOutput cmds pc = true
      · have hstep :
            List.foldl shStep ⟨cmds.drop pc, activeOutput cmds pc, so, se, wr, cr⟩
              (SEv.dataErr c :: rest) =
            List.foldl shStep
              ⟨cmds.drop pc, activeOutput cmds pc, so, se ++ [c], wr, cr⟩ rest := by
          rw [List.foldl_cons]
          congr 1
          simp [shStep, hact]
        rw [hstep, ih pc so (se ++ [c]) wr cr]
        simp [capturedOut, capturedErr, writesFrom, closeReqFrom, nPrompts, hact]
      · have hstep :
            List.foldl shStep ⟨cmds.drop pc, activeOutput cmds pc, so, se, wr, cr⟩
              (SEv.dataErr c :: rest) =
            List.foldl shStep
              ⟨cmds.drop pc, activeOutput cmds pc, so, se, wr, cr⟩ rest := by
          rw [List.foldl_cons]
          congr 1
          simp [shStep, hact]
        rw [hstep, ih pc so se wr cr]
        simp [capturedOut, capturedErr, writesFrom, closeReqFrom, nPrompts, hact]
    | close =>
      have hstep :
          List.foldl shStep ⟨cmds.drop pc, activeOutput cmds pc, so, se, wr, cr⟩
            (SEv.close :: rest) =
          List.foldl shStep
            ⟨cmds.drop pc, activeOutput cmds pc, so, se, wr, cr⟩ rest := by
        rw [List.foldl_cons]
        congr 1
      rw [hstep, ih pc so se wr cr]
      simp [capturedOut, capturedErr, writesFrom, closeReqFrom, nPrompts]

/-- The promise settles at the first close event: the result is computed
from the state reached by folding the pre-close prefix. -/
lemma runShell_append (post : List SEv) :
    ∀ (pre : List SEv) (st : ShSt), SEv.close ∉ pre →
      runShell st (pre ++ SEv.close :: post) =
        (List.foldl shStep st pre, some (closeResult (List.foldl shStep st pre))) := by
  intro pre
  induction pre with
  | nil => intro st _; rfl
  | cons e rest ih =>
    intro st h
    have hr : SEv.close ∉ rest := fun hx => h (List.mem_cons_of_mem _ hx)
    cases e with
    | close => exact absurd (List.mem_cons_self _ _) h
    | prompt => simpa [runShell] using ih (shStep st SEv.prompt) hr
    | dataOut c => simpa [runShell] using ih (shStep st (SEv.dataOut c)) hr
    | dataErr c => simpa [runShell] using ih (shStep st (SEv.dataErr c)) hr

/-- C6: for any command list and any delivered-event sequence, when the
channel closes the call rejects with the joined, trimmed captured stderr
text if any stderr chunk was captured, and otherwise resolves with the
joined, trimmed captured stdout — where the captured chunks are exactly
those data chunks that arrived while the active command (the last
dispatched one) was marked `output: true`; chunks of unmarked commands and
chunks preceding the first dispatch are discarded. -/
theorem c6_theorem (cmds : List CEntry) (pre post : List SEv)
    (h : SEv.close ∉ pre) :
    (runCommandsInShell cmds (pre ++ SEv.close :: post)).2 =
      some (if (capturedErr cmds pre 0).isEmpty
        then Except.ok (String.join (capturedOut cmds pre 0)).trim
        else Except.error (String.join (capturedErr cmds pre 0)).trim) := by
  unfold runCommandsInShell
  rw [runShell_append post pre _ h]
  have h0 : (⟨cmds, false, [], [], [], false⟩ : ShSt) =
      ⟨cmds.drop 0, activeOutput cmds 0, [], [], [], false⟩ := by
    simp [activeOutput]
  rw [h0, shStep_fold cmds pre 0 [] [] [] false]
  simp [closeResult]

/-- Witness for `c6_theorem`: commands `[{cmd: "echo B", output: true},
"echo C"]`; output `"x"` arrives while `echo B` is active and is captured,
output `"y"` arrives while the unmarked `echo C` is active and is
discarded; no stderr is captured, so the call resolves with the joined
trimmed stdout. -/
theorem c6_witness :
    (runCommandsInShell [CEntry.cmd "echo B" true, CEntry.str "echo C"]
        ([SEv.prompt, SEv.dataOut "x", SEv.prompt, SEv.dataOut "y", SEv.prompt] ++
          SEv.close :: [])).2 =
      some (Except.ok (String.join ["x"]).trim) := by
  rw [c6_theorem _ _ _ (by decide)]
  rfl

lemma writesFrom_take (cmds : List CEntry) :
    ∀ (evs : List SEv) (pc : Nat),
      writesFrom cmds evs pc =
        ((cmds.drop pc).take (nPrompts evs)).map (fun e => (normalize e).1 ++ "\n") := by
  intro evs
  induction evs with
  | nil => intro pc; simp [writesFrom, nPrompts]
  | cons e rest ih =>
    intro pc
    cases e with
    | prompt =>
      rcases hq : cmds.drop pc with _ | ⟨x, q⟩
      · have hnone := drop_eq_nil_of_getElem?_eq_none hq
        have hnil : cmds.drop (pc + 1) = [] := by
          have : (cmds.drop pc).drop 1 = [] := by rw [hq]; rfl
          rwa [List.drop_drop] at this
        simp [writesFrom, nPrompts, hnone, ih, hnil, hq]
      · obtain ⟨hsome, hdrop⟩ := drop_cons_getElem? hq
        simp [writesFrom, nPrompts, hsome, ih, hdrop, hq, List.take_succ_cons]
    | dataOut c => simp [writesFrom, nPrompts, ih]
    | dataErr c => simp [writesFrom, nPrompts, ih]
    | close => simp [writesFrom, nPrompts, ih]

lemma closeReqFrom_char (cmds : List CEntry) :
    ∀ (evs : List SEv) (pc : Nat), pc ≤ cmds.length →
      closeReqFrom cmds evs pc = decide (cmds.length < pc + nPrompts evs) := by
  intro evs
  induction evs with
  | nil =>
    intro pc hpc
    simp [closeReqFrom, nPrompts]
    omega
  | cons e rest ih =>
    intro pc hpc
    cases e with
    | prompt =>
      rcases Nat.lt_or_ge pc cmds.length with hlt | hge
      · have hsome : ∃ x, cmds[pc]? = some x := by
          have : pc < cmds.length := hlt
          exact ⟨cmds[pc], List.getElem?_eq_getElem this⟩
        obtain ⟨x, hx⟩ := hsome
        simp only [closeReqFrom, nPrompts, hx, Option.isNone_some, Bool.false_or]
        rw [ih (pc + 1) (by omega)]
        simp only [decide_eq_decide]
        omega
      · have hpe : pc = cmds.length := by omega
        have hnone : cmds[pc]? = none := List.getElem?_eq_none (by omega)
        have : cmds.length < pc + (nPrompts rest + 1) := by omega
        simp [closeReqFrom, nPrompts, hnone, this]
    | dataOut c => simpa [closeReqFrom, nPrompts] using ih pc hpc
    | dataErr c => simpa [closeReqFrom, nPrompts] using ih pc hpc
    | close => simpa [closeReqFrom, nPrompts] using ih pc hpc

/-- C7: for any command list and delivered events, at the moment the
channel closes the writes issued to the channel are exactly the first
`min(number of prompts observed, queue length)` commands, in queue (FIFO)
order, one write per prompt — so the `k`-th command is written only after
the `k`-th prompt, i.e. only once the previous command's prompt has been
observed — and `channel.close()` has been requested exactly when some
prompt arrived after the queue was exhausted (strictly more prompts than
commands). -/
theorem c7_theorem (cmds : List CEntry) (pre post : List SEv)
    (h : SEv.close ∉ pre) :
    (runCommandsInShell cmds (pre ++ SEv.close :: post)).1.written =
        (cmds.take (nPrompts pre)).map (fun e => (normalize e).1 ++ "\n") ∧
      (runCommandsInShell cmds (pre ++ SEv.close :: post)).1.closeRequested =
        decide (cmds.length < nPrompts pre) := by
  unfold runCommandsInShell
  rw [runShell_append post pre _ h]
  have h0 : (⟨cmds, false, [], [], [], false⟩ : ShSt) =
      ⟨cmds.drop 0, activeOutput cmds 0, [], [], [], false⟩ := by
    simp [activeOutput]
  rw [h0, shStep_fold cmds pre 0 [] [] [] false]
  constructor
  · simp [writesFrom_take]
  · simp [closeReqFrom_char cmds pre 0 (by omega)]

/-- Witness for `c7_theorem`: two commands, three prompts — both commands
written in order, and the third prompt (queue empty) requests the channel
close. -/
theorem c7_witness :
    (runCommandsInShell [CEntry.str "a", CEntry.cmd "b" true]
        ([SEv.prompt, SEv.dataOut "x", SEv.prompt, SEv.prompt] ++
          SEv.close :: [])).1.written =
        (([CEntry.str "a", CEntry.cmd "b" true].take
            (nPrompts [SEv.prompt, SEv.dataOut "x", SEv.prompt, SEv.prompt])).map
          (fun e => (normalize e).1 ++ "\n")) ∧
      (runCommandsInShell [CEntry.str "a", CEntry.cmd "b" true]
          ([SEv.prompt, SEv.dataOut "x", SEv.prompt, SEv.prompt] ++
            SEv.close :: [])).1.closeRequested =
        decide (([CEntry.str "a", CEntry.cmd "b" true] : List CEntry).length <
          nPrompts [SEv.prompt, SEv.dataOut "x", SEv.prompt, SEv.prompt]) := by
  exact c7_theorem [CEntry.str "a", CEntry.cmd "b" true]
    [SEv.prompt, SEv.dataOut "x", SEv.prompt, SEv.prompt] [] (by decide)

lemma chunksOfAux_length (m : Nat) :
    ∀ (fuel : Nat) (l : List Nat) (c : List Nat),
      c ∈ chunksOfAux m fuel l → c.length ≤ m + 1 := by
  intro fuel
  induction fuel with
  | zero => intro l c h; cases l <;> simp [chunksOfAux] at h
  | succ f ih =>
    intro l c h
    cases l with
    | nil => simp [chunksOfAux] at h
    | cons x xs =>
      simp only [chunksOfAux, List.mem_cons] at h
      rcases h with rfl | h
      · simp only [List.length_cons, List.length_take]
        have := Nat.min_le_left m xs.length
        omega
      · exact ih (xs.drop m) c h

lemma mem_start_batchTrace (tr : Nat → Option String) :
    ∀ (bs : List (List Nat)) (kj : Nat) (cj : List Nat) (j : Nat),
      bs[kj]? = some cj → j ∈ cj →
      ((bs.take kj).all (fun c => c.all (fun x => (tr x).isNone))) = true →
      Ev.tStart j ∈ batchTrace tr bs := by
  intro bs
  induction bs with
  | nil => intro kj cj j h; simp at h
  | cons c rest ih =>
    intro kj cj j hget hj hok
    cases kj with
    | zero =>
      have hc : c = cj := by simpa using hget
      subst hc
      exact List.mem_append.mpr (Or.inl (List.mem_append.mpr
        (Or.inl (List.mem_map_of_mem _ hj))))
    | succ k =>
      have hget' : rest[k]? = some cj := by simpa using hget
      have hok2 : c.all (fun x => (tr x).isNone) = true ∧
          ((rest.take k).all (fun c => c.all (fun x => (tr x).isNone))) = true := by
        simpa [List.take_succ_cons, Bool.and_eq_true] using hok
      have htr : batchTrace tr (c :: rest) =
          c.map Ev.tStart ++ c.map (fun x => Ev.tDone x (tr x)) ++ batchTrace tr rest := by
        simp only [batchTrace, hok2.1, if_true]
      rw [htr]
      exact List.mem_append.mpr (Or.inr (ih k cj j hget' hj hok2.2))

lemma batchTrace_precedes (tr : Nat → Option String) :
    ∀ (bs : List (List Nat)) (ki kj : Nat) (ci cj : List Nat) (i j : Nat),
      bs[ki]? = some ci → bs[kj]? = some cj → ki < kj → i ∈ ci → j ∈ cj →
      ((bs.take kj).all (fun c => c.all (fun x => (tr x).isNone))) = true →
      precedes (batchTrace tr bs) (Ev.tDone i (tr i)) (Ev.tStart j) := by
  intro bs
  induction bs with
  | nil => intro ki kj ci cj i j h; simp at h
  | cons c rest ih =>
    intro ki kj ci cj i j hgi hgj hlt hi hj hok
    obtain ⟨kj', rfl⟩ : ∃ kj', kj = kj' + 1 := ⟨kj - 1, by omega⟩
    have hgj' : rest[kj']? = some cj := by simpa using hgj
    have hok2 : c.all (fun x => (tr x).isNone) = true ∧
        ((rest.take kj').all (fun c => c.all (fun x => (tr x).isNone))) = true := by
      simpa [List.take_succ_cons, Bool.and_eq_true] using hok
    have htr : batchTrace tr (c :: rest) =
        c.map Ev.tStart ++ c.map (fun x => Ev.tDone x (tr x)) ++ batchTrace tr rest := by
      simp only [batchTrace, hok2.1, if_true]
    rw [htr]
    cases ki with
    | zero =>
      have hci : c = ci := by simpa using hgi
      subst hci
      refine precedes_of_mem_append ?_ ?_
      · exact List.mem_append.mpr (Or.inr (List.mem_map_of_mem _ hi))
      · exact mem_start_batchTrace tr rest kj' cj j hgj' hj hok2.2
    | succ k =>
      have hgi' : rest[k]? = some ci := by simpa using hgi
      exact precedes_append_left _
        (ih k kj' ci cj i j hgi' hgj' (by omega) hi hj hok2.2)

/-- C1 (amended): fixed-size sequential batching is the behavior of
`putFiles`, not of `putDirectory`.  (1) Every `putFiles` batch holds at
most `maxAtOnce` files.  (2) In `putFiles`, batches execute strictly
sequentially: whenever file `i` lies in an earlier batch than file `j` and
every batch before `j`'s has fully succeeded (otherwise `j`'s batch is
never issued at all), file `i`'s transfer resolves strictly before file
`j`'s transfer begins.  (3) `putDirectory` issues all its transfers in a
single concurrent window with no batch gating: every transfer start in its
trace precedes every transfer resolution. -/
theorem c1_theorem :
    (∀ (m : Nat) (l : List Nat) (c : List Nat), c ∈ chunksOf m l → c.length ≤ m) ∧
    (∀ (n m : Nat) (tr : Nat → Option String) (ki kj : Nat) (ci cj : List Nat)
        (i j : Nat),
      (chunksOf m (List.range n))[ki]? = some ci →
      (chunksOf m (List.range n))[kj]? = some cj →
      ki < kj → i ∈ ci → j ∈ cj →
      (((chunksOf m (List.range n)).take kj).all
        (fun c => c.all (fun x => (tr x).isNone))) = true →
      precedes (putFilesTrace n m tr) (Ev.tDone i (tr i)) (Ev.tStart j)) ∧
    (∀ (dirs : List String) (tr : Nat → Option String) (mk : String → Option JsErr),
      (∀ d, mk d = none) →
      ∀ (i j : Nat) (e : Option String),
        Ev.tStart i ∈ (putDirectoryRun dirs tr mk).1 →
        Ev.tDone j e ∈ (putDirectoryRun dirs tr mk).1 →
        precedes (putDirectoryRun dirs tr mk).1 (Ev.tStart i) (Ev.tDone j e)) := by
  refine ⟨?_, ?_, ?_⟩
  · intro m l c h
    cases m with
    | zero => simp [chunksOf] at h
    | succ m' => exact chunksOfAux_length m' l.length l c h
  · intro n m tr ki kj ci cj i j hgi hgj hlt hi hj hok
    exact batchTrace_precedes tr (chunksOf m (List.range n)) ki kj ci cj i j
      hgi hgj hlt hi hj hok
  · intro dirs tr mk hmk i j e hsi hdj
    rw [putDirectoryRun_ok dirs tr mk hmk] at hsi hdj ⊢
    refine precedes_of_mem_append ?_ ?_
    · rcases List.mem_append.mp hsi with h | h
      · exact h
      · exact absurd h (tStart_not_mem_doneEvents _ _ _)
    · rcases List.mem_append.mp hdj with h | h
      · rcases List.mem_append.mp h with h2 | h2
        · exact absurd h2 (tDone_not_mem_map_tStart _ _ _)
        · exact absurd h2 (tDone_not_mem_chainEvents _ _ _)
      · exact h

/-- Witness for `c1_theorem`: with `maxAtOnce = 5` and 12 files the last
batch `[10, 11]` has at most 5 files; file 4 (batch 0) resolves before
file 10 (batch 2) starts; and in a `putDirectory` of two files under
distinct parents, file 0's start precedes file 1's resolution. -/
theorem c1_witness :
    ([10, 11] : List Nat).length ≤ 5 ∧
    precedes (putFilesTrace 12 5 (fun _ => none)) (Ev.tDone 4 none) (Ev.tStart 10) ∧
    precedes (putDirectoryRun ["d", "e"] (fun _ => none) (fun _ => none)).1
      (Ev.tStart 0) (Ev.tDone 1 none) := by
  refine ⟨?_, ?_, ?_⟩
  · exact c1_theorem.1 5 (List.range 12) [10, 11] (by decide)
  · exact c1_theorem.2.1 12 5 (fun _ => none) 0 2 [0, 1, 2, 3, 4] [10, 11] 4 10
      (by decide) (by decide) (by decide) (by decide) (by decide) (by decide)
  · exact c1_theorem.2.2 ["d", "e"] (fun _ => none) (fun _ => none) (fun _ => rfl)
      0 1 none (by decide) (by decide)

/-- C1 counterexample: `putDirectory` does not batch.  Six files sharing
one remote parent, all transfers succeeding: the claim (batch size 5)
requires every batch-1 file (indices 0–4) to have resolved before
batch-2's file 5 begins, but file 5's transfer start occurs in the trace
before file 1's resolution — `putDirectory` maps all files into promises
at once and gates nothing on transfer completion. -/
theorem c1_counterexample :
    Ev.tStart 5 ∈
        (putDirectoryRun ["d", "d", "d", "d", "d", "d"] (fun _ => none)
          (fun _ => none)).1 ∧
      Ev.tDone 1 none ∈
        (putDirectoryRun ["d", "d", "d", "d", "d", "d"] (fun _ => none)
          (fun _ => none)).1 ∧
      ¬ precedes
        (putDirectoryRun ["d", "d", "d", "d", "d", "d"] (fun _ => none)
          (fun _ => none)).1
        (Ev.tDone 1 none) (Ev.tStart 5) := by
  refine ⟨by decide, by decide, not_precedes _ _ _ (by decide)⟩

/-- C2 (amended): in `putDirectory`, each distinct remote parent directory
is submitted for creation at most once per invocation, the creations being
serialized one at a time in discovery order — the trace's mkdir events are
exactly one request-completion pair per distinct parent, in first-discovery
order, with no duplicates — and the *first* file discovering a parent
transfers only after that creation completed.  But a file whose parent is
already in the created-set does **not** wait for the shared creation: it
begins its transfer before every creation request (see
`c2_counterexample`). -/
theorem c2_theorem (dirs : List String) (tr : Nat → Option String)
    (mk : String → Option JsErr) (hmk : ∀ d, mk d = none) :
    (putDirectoryRun dirs tr mk).1.filter isMkEv = mkdirEvents (firstOccs [] dirs) ∧
    (firstOccs [] dirs).Nodup ∧
    (∀ dw ∈ (syncPhase dirs 0 []).1,
      precedes (putDirectoryRun dirs tr mk).1 (Ev.mkDone dw.1) (Ev.tStart dw.2)) ∧
    (∀ i ∈ (syncPhase dirs 0 []).2.1, ∀ d : String,
      Ev.mkStart d ∈ (putDirectoryRun dirs tr mk).1 →
      precedes (putDirectoryRun dirs tr mk).1 (Ev.tStart i) (Ev.mkStart d)) := by
  refine ⟨?_, (firstOccs_nodup dirs []).1, ?_, ?_⟩
  · rw [putDirectoryRun_ok dirs tr mk hmk]
    simp only [List.filter_append, filter_isMk_map_tStart, filter_isMk_chainEvents,
      filter_isMk_doneEvents, List.nil_append, List.append_nil, syncPhase_fst_map]
  · intro dw hdw
    rw [putDirectoryRun_ok dirs tr mk hmk]
    have hB : precedes (chainEvents (syncPhase dirs 0 []).1)
        (Ev.mkDone dw.1) (Ev.tStart dw.2) := by
      obtain ⟨p, s, hps⟩ := List.append_of_mem hdw
      rw [hps, chainEvents_append]
      rcases dw with ⟨d, w⟩
      exact ⟨chainEvents p ++ [Ev.mkStart d], [], chainEvents s,
        by simp [chainEvents]⟩
    exact precedes_append_right _ (precedes_append_left _ hB)
  · intro i hi d hmem
    rw [putDirectoryRun_ok dirs tr mk hmk] at hmem ⊢
    rw [List.append_assoc] at hmem ⊢
    refine precedes_of_mem_append (List.mem_map_of_mem _ hi) ?_
    rcases List.mem_append.mp hmem with h | h
    · exact absurd h (mkStart_not_mem_map_tStart _ _)
    · exact h

/-- Witness for `c2_theorem` at two files sharing parent `"d"`: the mkdir
events are the single request-completion pair for `"d"`; the first
discoverer (file 0) starts only after the creation completed; the
set-hitting file 1 starts before the creation request. -/
theorem c2_witness :
    (putDirectoryRun ["d", "d"] (fun _ => none) (fun _ => none)).1.filter isMkEv =
        mkdirEvents (firstOccs [] ["d", "d"]) ∧
      precedes (putDirectoryRun ["d", "d"] (fun _ => none) (fun _ => none)).1
        (Ev.mkDone "d") (Ev.tStart 0) ∧
      precedes (putDirectoryRun ["d", "d"] (fun _ => none) (fun _ => none)).1
        (Ev.tStart 1) (Ev.mkStart "d") := by
  have h := c2_theorem ["d", "d"] (fun _ => none) (fun _ => none) (fun _ => rfl)
  exact ⟨h.1, h.2.2.1 ("d", 0) (by decide), h.2.2.2 1 (by decide) "d" (by decide)⟩

/-- C2 counterexample: with two files sharing parent `"d"`, the claim
requires file 1 to wait for the shared creation — its transfer attempt
should come after the creation completes — but in the trace file 1's
transfer start precedes the creation's completion: the `await
directoriesQueue` sits inside the `if` that only the first discoverer
enters, so set-hitting files proceed straight to `putFile`. -/
theorem c2_counterexample :
    Ev.tStart 1 ∈ (putDirectoryRun ["d", "d"] (fun _ => none) (fun _ => none)).1 ∧
      Ev.mkDone "d" ∈
        (putDirectoryRun ["d", "d"] (fun _ => none) (fun _ => none)).1 ∧
      ¬ precedes (putDirectoryRun ["d", "d"] (fun _ => none) (fun _ => none)).1
        (Ev.mkDone "d") (Ev.tStart 1) := by
  refine ⟨by decide, by decide, not_precedes _ _ _ (by decide)⟩

/-- C3: when the directory creations succeed, `putDirectory` returns
normally (never throwing for per-file transfer failures), with `true`
exactly when every enumerated file transferred successfully; the tick
callback fires exactly once per enumerated file, carrying that file's
captured error (`none` on success); and every file's transfer resolves —
one file's failure aborts no sibling transfer. -/
theorem c3_theorem (dirs : List String) (tr : Nat → Option String)
    (mk : String → Option JsErr) (hmk : ∀ d, mk d = none) :
    (putDirectoryRun dirs tr mk).2 =
        Except.ok ((List.range dirs.length).all (fun i => (tr i).isNone)) ∧
      ((putDirectoryRun dirs tr mk).2 = Except.ok true ↔
        ∀ i < dirs.length, tr i = none) ∧
      List.Perm ((putDirectoryRun dirs tr mk).1.filter isTickEv)
        ((List.range dirs.length).map (fun i => Ev.tick i (tr i))) ∧
      ∀ i < dirs.length, Ev.tDone i (tr i) ∈ (putDirectoryRun dirs tr mk).1 := by
  have hperm : List.Perm
      ((syncPhase dirs 0 []).2.1 ++ (syncPhase dirs 0 []).1.map Prod.snd)
      (List.range dirs.length) := by
    rw [List.range_eq_range']
    exact List.Perm.trans List.perm_append_comm (syncPhase_perm dirs 0 [])
  refine ⟨?_, ?_, ?_, ?_⟩
  · rw [putDirectoryRun_ok dirs tr mk hmk]
  · rw [putDirectoryRun_ok dirs tr mk hmk]
    simp [List.all_eq_true, List.mem_range, Option.isNone_iff_eq_none]
  · rw [putDirectoryRun_ok dirs tr mk hmk]
    simp only [List.filter_append, filter_isTick_map_tStart, filter_isTick_chainEvents,
      filter_isTick_doneEvents, List.nil_append]
    exact List.Perm.map _ hperm
  · intro i hi
    rw [putDirectoryRun_ok dirs tr mk hmk]
    have hio : i ∈ (syncPhase dirs 0 []).2.1 ++ (syncPhase dirs 0 []).1.map Prod.snd :=
      hperm.mem_iff.mpr (List.mem_range.mpr hi)
    exact List.mem_append.mpr (Or.inr (tDone_mem_doneEvents hio))

/-- Witness for `c3_theorem`: a one-file directory with a succeeding
transfer — the result is `ok true` iff every file succeeded, and the
file's resolution is in the trace. -/
theorem c3_witness :
    ((putDirectoryRun ["d"] (fun _ => none) (fun _ => none)).2 = Except.ok true ↔
        ∀ i < (["d"] : List String).length,
          ((fun _ => (none : Option String)) i : Option String) = none) ∧
      Ev.tDone 0 none ∈ (putDirectoryRun ["d"] (fun _ => none) (fun _ => none)).1 := by
  have h := c3_theorem ["d"] (fun _ => none) (fun _ => none) (fun _ => rfl)
  exact ⟨h.2.1, h.2.2.2 0 (by decide)⟩

end NodeSSH
